import Mathlib

/-!
Shallow embedding of `src/program.py` (a random-number generator analysis
tool).  The ambient random source is made explicit: integer-valued draws are
modelled as a `List Nat` of raw nonnegative words consumed left to right, and
the real-valued standard-normal draws of `np.random.normal` are modelled as a
`List ℚ` of draws.  A generator is then a pure function of `(N, size)` and the
source, returning `some (sample, restOfSource)`, or `none` when the finite
model of the source is exhausted (the real source is inexhaustible, so the
`some` case is the faithful one).  Library calls made by the program
(`random.randint`, `np.random.randint`, `np.corrcoef`, `np.concatenate`,
`matplotlib`'s `Axes.acorr`) are embedded according to the behaviour of the
libraries the program imports.  Floating-point numbers are idealised as exact
rationals (and reals where logarithms occur).
-/

namespace Program

/-- Python's `int.bit_length`, by fuel recursion (`bitLenAux n n` suffices
since the bit length of `n` is at most `n`). -/
def bitLenAux : Nat → Nat → Nat
  | 0, _ => 0
  | fuel + 1, n => if n = 0 then 0 else bitLenAux fuel (n / 2) + 1

/-- Python's `n.bit_length()`. -/
def bitLen (n : Nat) : Nat := bitLenAux n n

/-- CPython's `random._randbelow_with_getrandbits n` (the implementation of
`random.randint(0, n-1)`): draw `k = n.bit_length()` bits, reject and redraw
while the draw is `≥ n`.  A raw word `w` from the source stands for the
`getrandbits` result `w % 2 ^ k`.  Returns the accepted value and the unread
rest of the source, or `none` if the source is exhausted. -/
def randbelow (n : Nat) : List Nat → Option (Nat × List Nat)
  | [] => none
  | w :: rest =>
      let r := w % 2 ^ bitLen n
      if r < n then some (r, rest) else randbelow n rest

/-- Run a single-draw generator `size` times, threading the source. -/
def genList {α σ : Type} (draw : σ → Option (α × σ)) : Nat → σ → Option (List α × σ)
  | 0, s => some ([], s)
  | n + 1, s =>
      match draw s with
      | none => none
      | some (x, s₁) =>
          match genList draw n s₁ with
          | none => none
          | some (xs, s₂) => some (x :: xs, s₂)

/-- `c_style_rand(N, size)` from the source:
`[random.randint(0, N - 1) for _ in range(size)]`. -/
def c_style_rand (N size : Nat) (src : List Nat) : Option (List Nat × List Nat) :=
  genList (randbelow N) size src

/-- Modelled from the spec (refinement counterpart for the `ModuloUniform`
description, not from the source): each value is "a full-range random draw
reduced modulo N", i.e. the next raw word of the source taken `% N`. -/
def ModuloUniform_spec (N size : Nat) (src : List Nat) : Option (List Nat × List Nat) :=
  genList (fun s => match s with
    | [] => none
    | w :: rest => some (w % N, rest)) size src

/-- numpy's mask for a bounded draw: smallest `2 ^ k - 1` covering `m`. -/
def npMask (m : Nat) : Nat := 2 ^ bitLen m - 1

/-- numpy's `rk_interval max` (the per-element draw behind
`np.random.randint(0, N)` with `max = N - 1`): mask a raw word down to
`bit_length max` bits and reject while it exceeds `max`. -/
def rk_interval (maxv : Nat) : List Nat → Option (Nat × List Nat)
  | [] => none
  | w :: rest =>
      let r := w % (npMask maxv + 1)
      if r ≤ maxv then some (r, rest) else rk_interval maxv rest

/-- `uniform_rand(N, size)` from the source: `np.random.randint(0, N, size=size)`. -/
def uniform_rand (N size : Nat) (src : List Nat) : Option (List Nat × List Nat) :=
  genList (rk_interval (N - 1)) size src

/-- numpy's `np.round` on an exact value: round half to even. -/
def roundHalfEven (q : ℚ) : ℤ :=
  let f := ⌊q⌋
  if q - f < 1 / 2 then f
  else if 1 / 2 < q - f then f + 1
  else if f % 2 = 0 then f else f + 1

/-- `np.clip x lo hi` on integers. -/
def clip (lo hi x : ℤ) : ℤ := max lo (min x hi)

/-- One element of `normal_rand`: `np.clip(np.round(mean + std * z), 0, N - 1)`
with `mean = (N - 1) / 2`, `std = (N - 1) / 6`, where `z` is the
standard-normal draw supplied by the ambient source. -/
def normalValue (N : Nat) (z : ℚ) : ℤ :=
  clip 0 ((N : ℤ) - 1) (roundHalfEven (((N : ℚ) - 1) / 2 + ((N : ℚ) - 1) / 6 * z))

/-- `normal_rand(N, size)` from the source: draw `size` normals
`np.random.normal(mean, std, size)`, round, clip into `[0, N - 1]`, cast to
int.  The normal draws are `mean + std * z` for ambient standard draws `z`. -/
def normal_rand (N size : Nat) (src : List ℚ) : Option (List ℤ × List ℚ) :=
  if size ≤ src.length then
    some ((src.take size).map (normalValue N), src.drop size)
  else none

/-- `np.diff`: `out[i] = a[i+1] - a[i]`. -/
def diffZ (xs : List ℤ) : List ℤ :=
  List.zipWith (fun a b => a - b) (xs.drop 1) xs

/-- `np.sign` on an integer. -/
def signZ (x : ℤ) : ℤ := if 0 < x then 1 else if x < 0 then -1 else 0

/-- The run count of `randomness_test` (lines 92–99 of the source):
`delta = np.diff(samples)`, `trend_changes = np.diff(np.sign(delta)) != 0`,
`runs = np.sum(trend_changes) + 1`. -/
def runCount (samples : List ℤ) : Nat :=
  (diffZ ((diffZ samples).map signZ)).countP (fun d => decide (d ≠ 0)) + 1

/-- Mean of a rational list (`np.mean`; `0` on the empty list, where numpy
produces NaN — callers only rely on the nonempty case). -/
def meanQ (xs : List ℚ) : ℚ := xs.sum / xs.length

/-- Sum of squared deviations from the mean: the diagonal entry of the
covariance matrix inside `np.corrcoef`, up to the positive `1/(n-1)` factor. -/
def sumSqDev (xs : List ℚ) : ℚ := (xs.map (fun x => (x - meanQ xs) ^ 2)).sum

/-- `np.corrcoef(x, y)[0, 1]` is NaN exactly when the input series are empty,
have a single element (`ddof = 1` makes the covariance `0/0`), or either
series has zero variance (the Pearson denominator vanishes). -/
def corrIsNaN (xs ys : List ℚ) : Bool :=
  decide (xs.length ≤ 1) || decide (sumSqDev xs = 0) || decide (sumSqDev ys = 0)

/-- Whether `np.corrcoef(samples[:-1], samples[1:])[0, 1]` (line 88) is NaN. -/
def lag1CorrIsNaN (samples : List ℤ) : Bool :=
  corrIsNaN (samples.dropLast.map (fun (x : ℤ) => (x : ℚ)))
    ((samples.drop 1).map (fun (x : ℤ) => (x : ℚ)))

/-- The two scalar results of `randomness_test`: whether the reported lag-1
autocorrelation coefficient is NaN, and the run count. -/
structure RTResult where
  acfNaN : Bool
  runs : Nat
deriving DecidableEq

/-- `RandomnessTester.randomness_test`: computes the lag-1 coefficient and the
run count, then calls `ax.acorr(samples, maxlags=10)`.  matplotlib's
`Axes.xcorr` raises `ValueError` via `np.correlate` on an empty input, and
raises `ValueError("maxlags must be None or strictly positive < N")` when
`maxlags = 10 ≥ len(samples)`; either exception propagates out of the method,
discarding the computed result. -/
def randomness_test (samples : List ℤ) : Except String RTResult :=
  let acf := lag1CorrIsNaN samples
  let runs := runCount samples
  if samples.length = 0 then Except.error "v cannot be empty"
  else if samples.length ≤ 10 then
    Except.error "maxlags must be None or strictly positive < N"
  else Except.ok ⟨acf, runs⟩

/-- `observed` of `distribution_check` (line 75):
`[Counter(samples).get(i, 0) for i in range(N)]`. -/
def observed (N : Nat) (samples : List ℤ) : List Nat :=
  (List.range N).map (fun (i : Nat) => samples.count ((i : ℤ)))

/-- `expected` of `distribution_check` (line 76):
`np.full(N, len(samples) / N)`. -/
def expected (N : Nat) (samples : List ℤ) : List ℚ :=
  (List.range N).map (fun _ => (samples.length : ℚ) / (N : ℚ))

/-- Occurrence indices of `v` in the sample, in order, starting from index
`i` — the `positions[val]` lists built by `distribution_test` via
`enumerate`. -/
def occIdxAux (v : ℤ) : List ℤ → Nat → List ℤ
  | [], _ => []
  | x :: xs, i => if x = v then (i : ℤ) :: occIdxAux v xs (i + 1) else occIdxAux v xs (i + 1)

/-- `positions[v]` of `distribution_test`: the sorted occurrence indices. -/
def occIdx (samples : List ℤ) (v : ℤ) : List ℤ := occIdxAux v samples 0

/-- The keys of the `defaultdict` in insertion order (first occurrence). -/
def insertionKeys (samples : List ℤ) : List ℤ :=
  samples.foldl (fun acc v => if v ∈ acc then acc else acc ++ [v]) []

/-- The interval array of `distribution_test` (line 51):
`np.concatenate([np.diff(np.array(pos)) for pos in positions.values()])`.
`np.concatenate` raises `ValueError("need at least one array to concatenate")`
when `positions` is empty (empty sample). -/
def intervals (samples : List ℤ) : Except String (List ℤ) :=
  let groups := (insertionKeys samples).map (fun v => diffZ (occIdx samples v))
  if groups.isEmpty then Except.error "need at least one array to concatenate"
  else Except.ok groups.flatten

/-- Python's `int()` on an exact value: truncation toward zero. -/
def intTrunc (q : ℚ) : ℤ := if 0 ≤ q then ⌊q⌋ else -⌊-q⌋

/-- The throughput report of `RandomnessTester.performance_test` (line 120):
`int(self.sample_size / duration)`, where `duration` is the measured
wall-clock time (an ambient input of the model).  Python float division
raises `ZeroDivisionError` when `duration` is exactly `0.0`. -/
def performance_test (sample_size : Nat) (duration : ℚ) : Except String ℤ :=
  if duration = 0 then Except.error "float division by zero"
  else Except.ok (intTrunc ((sample_size : ℚ) / duration))

/-- The positive relative frequencies of `entropy_test` (lines 126–127):
`[freq.get(i, 0) / len(samples) for i in range(N)]` filtered to `> 0`. -/
def probs (N : Nat) (samples : List ℤ) : List ℚ :=
  ((observed N samples).map (fun (c : Nat) => (c : ℚ) / (samples.length : ℚ))).filter
    (fun (p : ℚ) => decide (0 < p))

/-- The Shannon entropy of `entropy_test` (line 128):
`-np.sum(probabilities * np.log2(probabilities))` over the positive
frequencies. -/
noncomputable def entropy (N : Nat) (samples : List ℤ) : ℝ :=
  -((probs N samples).map (fun (p : ℚ) => (p : ℝ) * Real.logb 2 (p : ℝ))).sum

/-- Adjacent-pair test on a list: `adjAll p l` holds when every two
consecutive elements of `l` satisfy `p`. -/
def adjAll (p : ℤ → ℤ → Bool) : List ℤ → Bool
  | a :: b :: t => p a b && adjAll p (b :: t)
  | _ => true

/-- Strictly monotonically increasing sample. -/
def strictIncr (s : List ℤ) : Bool := adjAll (fun a b => decide (a < b)) s

/-- Alternating up/down sample: every first difference is nonzero and
consecutive differences have opposite signs. -/
def alternating (s : List ℤ) : Bool :=
  (diffZ s).all (fun d => decide (signZ d ≠ 0)) &&
    adjAll (fun d e => decide (signZ e = -signZ d)) (diffZ s)

/-- Modelled from the spec's description of the run count (refinement
counterpart of `runCount`): "take first differences of the sample, take the
sign of each difference, count sign changes between consecutive signs, add
1". -/
def runCountSpec (samples : List ℤ) : Nat :=
  let signs := (diffZ samples).map signZ
  (signs.zip (signs.drop 1)).countP (fun p => decide (p.1 ≠ p.2)) + 1

/-! ### Generator lemmas -/

theorem genList_length {α σ : Type} (draw : σ → Option (α × σ)) :
    ∀ (n : Nat) (s : σ) (xs : List α) (s' : σ),
      genList draw n s = some (xs, s') → xs.length = n := by
  intro n
  induction n with
  | zero =>
    intro s xs s' h
    simp only [genList, Option.some.injEq, Prod.mk.injEq] at h
    simp [← h.1]
  | succ k ih =>
    intro s xs s' h
    simp only [genList] at h
    split at h
    · exact absurd h (by simp)
    · rename_i x s₁ hd
      split at h
      · exact absurd h (by simp)
      · rename_i ys s₂ hg
        simp only [Option.some.injEq, Prod.mk.injEq] at h
        have := ih s₁ ys s₂ hg
        rw [← h.1]
        simp [this]

theorem genList_forall {α σ : Type} (draw : σ → Option (α × σ)) {P : α → Prop}
    (hdraw : ∀ s x s', draw s = some (x, s') → P x) :
    ∀ (n : Nat) (s : σ) (xs : List α) (s' : σ),
      genList draw n s = some (xs, s') → ∀ x ∈ xs, P x := by
  intro n
  induction n with
  | zero =>
    intro s xs s' h
    simp only [genList, Option.some.injEq, Prod.mk.injEq] at h
    rw [← h.1]
    intro x hx
    exact absurd hx (by simp)
  | succ k ih =>
    intro s xs s' h
    simp only [genList] at h
    split at h
    · exact absurd h (by simp)
    · rename_i y s₁ hd
      split at h
      · exact absurd h (by simp)
      · rename_i ys s₂ hg
        simp only [Option.some.injEq, Prod.mk.injEq] at h
        rw [← h.1]
        intro x hx
        rcases List.mem_cons.mp hx with hx | hx
        · exact hx ▸ hdraw s y s₁ hd
        · exact ih s₁ ys s₂ hg x hx

theorem randbelow_lt (n : Nat) :
    ∀ (src : List Nat) (r : Nat) (rest : List Nat),
      randbelow n src = some (r, rest) → r < n := by
  intro src
  induction src with
  | nil => intro r rest h; exact absurd h (by simp [randbelow])
  | cons w tl ih =>
    intro r rest h
    simp only [randbelow] at h
    by_cases hlt : w % 2 ^ bitLen n < n
    · rw [if_pos hlt] at h
      simp only [Option.some.injEq, Prod.mk.injEq] at h
      exact h.1 ▸ hlt
    · rw [if_neg hlt] at h
      exact ih r rest h

theorem rk_interval_le (maxv : Nat) :
    ∀ (src : List Nat) (r : Nat) (rest : List Nat),
      rk_interval maxv src = some (r, rest) → r ≤ maxv := by
  intro src
  induction src with
  | nil => intro r rest h; exact absurd h (by simp [rk_interval])
  | cons w tl ih =>
    intro r rest h
    simp only [rk_interval] at h
    by_cases hle : w % (npMask maxv + 1) ≤ maxv
    · rw [if_pos hle] at h
      simp only [Option.some.injEq, Prod.mk.injEq] at h
      exact h.1 ▸ hle
    · rw [if_neg hle] at h
      exact ih r rest h

theorem clip_mem (lo hi x : ℤ) (h : lo ≤ hi) : lo ≤ clip lo hi x ∧ clip lo hi x ≤ hi := by
  unfold clip
  constructor
  · exact le_max_left lo (min x hi)
  · exact max_le h (min_le_right x hi)

theorem randbelow_mem (n : Nat) :
    ∀ (src : List Nat) (r : Nat) (rest : List Nat),
      randbelow n src = some (r, rest) → ∃ w ∈ src, r = w % 2 ^ bitLen n := by
  intro src
  induction src with
  | nil => intro r rest h; exact absurd h (by simp [randbelow])
  | cons w tl ih =>
    intro r rest h
    simp only [randbelow] at h
    by_cases hlt : w % 2 ^ bitLen n < n
    · rw [if_pos hlt] at h
      simp only [Option.some.injEq, Prod.mk.injEq] at h
      exact ⟨w, by simp, h.1.symm⟩
    · rw [if_neg hlt] at h
      obtain ⟨w', hw', he⟩ := ih r rest h
      exact ⟨w', by simp [hw'], he⟩

theorem randbelow_subset (n : Nat) :
    ∀ (src : List Nat) (r : Nat) (rest : List Nat),
      randbelow n src = some (r, rest) → rest ⊆ src := by
  intro src
  induction src with
  | nil => intro r rest h; exact absurd h (by simp [randbelow])
  | cons w tl ih =>
    intro r rest h
    simp only [randbelow] at h
    by_cases hlt : w % 2 ^ bitLen n < n
    · rw [if_pos hlt] at h
      simp only [Option.some.injEq, Prod.mk.injEq] at h
      rw [← h.2]
      exact List.subset_cons_self w tl
    · rw [if_neg hlt] at h
      exact (ih r rest h).trans (List.subset_cons_self w tl)

theorem c_style_elem (N : Nat) :
    ∀ (k : Nat) (src xs s' : List Nat),
      genList (randbelow N) k src = some (xs, s') →
      ∀ x ∈ xs, x < N ∧ ∃ w ∈ src, x = w % 2 ^ bitLen N := by
  intro k
  induction k with
  | zero =>
    intro src xs s' h
    simp only [genList, Option.some.injEq, Prod.mk.injEq] at h
    rw [← h.1]
    intro x hx
    exact absurd hx (by simp)
  | succ k ih =>
    intro src xs s' h
    simp only [genList] at h
    split at h
    · exact absurd h (by simp)
    · rename_i y s₁ hd
      split at h
      · exact absurd h (by simp)
      · rename_i ys s₂ hg
        simp only [Option.some.injEq, Prod.mk.injEq] at h
        rw [← h.1]
        intro x hx
        rcases List.mem_cons.mp hx with hx | hx
        · subst hx
          exact ⟨randbelow_lt N src x s₁ hd, randbelow_mem N src x s₁ hd⟩
        · obtain ⟨hlt, w', hw', he⟩ := ih s₁ ys s₂ hg x hx
          exact ⟨hlt, w', randbelow_subset N src y s₁ hd hw', he⟩

theorem normalValue_zero (z : ℚ) : normalValue 1 z = 0 := by
  have harg : (((1 : Nat) : ℚ) - 1) / 2 + (((1 : Nat) : ℚ) - 1) / 6 * z = 0 := by
    norm_num
  unfold normalValue
  rw [harg]
  have : roundHalfEven 0 = 0 := by norm_num [roundHalfEven]
  rw [this]
  simp [clip]

/-! ### Claim theorems -/

/-- C1: for every `N > 0` (and any `size`), each of the three generators —
`c_style_rand` (ModuloUniform), `uniform_rand` (RangeUniform) and
`normal_rand` (ClippedNormal) — when it returns a sample, returns exactly
`size` integer elements, each lying in `[0, N)`.  The generators are pure
functions of `(N, size)` and the ambient random source by construction of the
embedding: their only other effect is returning the unread rest of the
source. -/
theorem generators_return_size_in_range :
    (∀ (N size : Nat) (src sample rest : List Nat), 0 < N →
        c_style_rand N size src = some (sample, rest) →
        sample.length = size ∧ ∀ x ∈ sample, x < N) ∧
    (∀ (N size : Nat) (src sample rest : List Nat), 0 < N →
        uniform_rand N size src = some (sample, rest) →
        sample.length = size ∧ ∀ x ∈ sample, x < N) ∧
    (∀ (N size : Nat) (src : List ℚ) (sample : List ℤ) (rest : List ℚ), 0 < N →
        normal_rand N size src = some (sample, rest) →
        sample.length = size ∧ ∀ x ∈ sample, 0 ≤ x ∧ x < (N : ℤ)) := by
  refine ⟨?_, ?_, ?_⟩
  · intro N size src sample rest _ h
    exact ⟨genList_length _ size src sample rest h,
      genList_forall _ (fun s x s' hd => randbelow_lt N s x s' hd) size src sample rest h⟩
  · intro N size src sample rest hN h
    refine ⟨genList_length _ size src sample rest h, ?_⟩
    have := genList_forall (rk_interval (N - 1))
      (fun s x s' hd => rk_interval_le (N - 1) s x s' hd) size src sample rest h
    intro x hx
    have hle := this x hx
    omega
  · intro N size src sample rest hN h
    unfold normal_rand at h
    split at h
    · rename_i hlen
      simp only [Option.some.injEq, Prod.mk.injEq] at h
      constructor
      · rw [← h.1, List.length_map, List.length_take]
        omega
      · intro x hx
        rw [← h.1] at hx
        obtain ⟨z, _, hz⟩ := List.mem_map.mp hx
        have h01 : (0 : ℤ) ≤ (N : ℤ) - 1 := by omega
        have hc := clip_mem 0 ((N : ℤ) - 1)
          (roundHalfEven (((N : ℚ) - 1) / 2 + ((N : ℚ) - 1) / 6 * z)) h01
        have hz' : normalValue N z = x := hz
        rw [normalValue] at hz'
        rw [← hz']
        exact ⟨hc.1, by omega⟩
    · exact absurd h (by simp)

/-- C1 witness: concrete invocations of the three generators. -/
theorem generators_return_size_in_range_witness :
    (([1] : List Nat).length = 1 ∧ ∀ x ∈ ([1] : List Nat), x < 2) ∧
    (([1] : List Nat).length = 1 ∧ ∀ x ∈ ([1] : List Nat), x < 2) ∧
    (([1] : List ℤ).length = 1 ∧ ∀ x ∈ ([1] : List ℤ), 0 ≤ x ∧ x < ((3 : Nat) : ℤ)) :=
  ⟨generators_return_size_in_range.1 2 1 [1] [1] [] (by decide) (by decide),
   generators_return_size_in_range.2.1 2 1 [1] [1] [] (by decide) (by decide),
   generators_return_size_in_range.2.2 3 1 [0] [1] [] (by decide)
     (by norm_num [normal_rand, normalValue, roundHalfEven, clip])⟩

/-- C2 counterexample: `c_style_rand` is not "a full-range draw from the
source reduced modulo N".  With `N = 3` and raw source `[3, 1]`, the code
(CPython `randint`, i.e. rejection sampling on 2-bit draws) rejects the draw
`3` and returns `[1]`, while the spec's modulo reduction would return
`[3 % 3] = [0]`. -/
theorem c_style_rand_not_modulo :
    c_style_rand 3 1 [3, 1] ≠ ModuloUniform_spec 3 1 [3, 1] := by decide

/-- C2 (amended): `c_style_rand` draws each of its `size` values directly
from `{0, ..., N-1}`: every element of the sample is a `bit_length N`-bit
draw taken unreduced from the random source, accepted because it is already
`< N` — no modulo-`N` reduction of a full-range draw occurs. -/
theorem c_style_rand_direct_draw :
    ∀ (N size : Nat) (src sample rest : List Nat),
      c_style_rand N size src = some (sample, rest) →
      ∀ x ∈ sample, x < N ∧ ∃ w ∈ src, x = w % 2 ^ bitLen N := by
  intro N size src sample rest h
  exact c_style_elem N size src sample rest h

/-- C2 witness: the concrete run behind the counterexample, through the
amended theorem. -/
theorem c_style_rand_direct_draw_witness :
    1 < 3 ∧ ∃ w ∈ ([3, 1] : List Nat), 1 = w % 2 ^ bitLen 3 :=
  c_style_rand_direct_draw 3 1 [3, 1] [1] [] (by decide) 1 (by decide)

/-- C3: contrary to the claim, `randomness_test` crashes on a sample of
length ≤ 1.  The lag-1 coefficient itself is computed without crashing and is
NaN (first conjunct: the `"undefined"` report the claim asks for), but the
method then raises `ValueError` inside `ax.acorr(samples, maxlags=10)` —
`maxlags = 10 ≥ len(samples)` for a length-1 sample, and `np.correlate`
rejects an empty input for a length-0 sample — so no result is returned. -/
theorem randomness_test_short_sample_raises :
    lag1CorrIsNaN [5] = true ∧
    randomness_test [5] = Except.error "maxlags must be None or strictly positive < N" ∧
    randomness_test [] = Except.error "v cannot be empty" :=
  ⟨by norm_num [lag1CorrIsNaN, corrIsNaN], rfl, rfl⟩

/-- C4: contrary to the claim, the `sample_size / duration` division of
`performance_test` is not guarded by any minimum-epsilon floor: a measured
duration of exactly zero raises `ZeroDivisionError` (Python float division by
zero). -/
theorem performance_test_zero_duration_raises :
    performance_test 10000 0 = Except.error "float division by zero" := rfl

/-- C5: `normal_rand` (which draws `mean + std * z` with `mean = (N-1)/2`,
`std = (N-1)/6`, rounds to nearest and clips into `[0, N-1]`) never returns a
value outside `[0, N-1]`, and for `N = 1` every returned element is `0`. -/
theorem normal_rand_clipped_range :
    ∀ (N size : Nat) (src : List ℚ) (sample : List ℤ) (rest : List ℚ), 1 ≤ N →
      normal_rand N size src = some (sample, rest) →
      (∀ x ∈ sample, 0 ≤ x ∧ x ≤ (N : ℤ) - 1) ∧ (N = 1 → ∀ x ∈ sample, x = 0) := by
  intro N size src sample rest hN h
  unfold normal_rand at h
  split at h
  · rename_i hlen
    simp only [Option.some.injEq, Prod.mk.injEq] at h
    constructor
    · intro x hx
      rw [← h.1] at hx
      obtain ⟨z, _, hz⟩ := List.mem_map.mp hx
      have h01 : (0 : ℤ) ≤ (N : ℤ) - 1 := by omega
      have hc := clip_mem 0 ((N : ℤ) - 1)
        (roundHalfEven (((N : ℚ) - 1) / 2 + ((N : ℚ) - 1) / 6 * z)) h01
      have hz' : normalValue N z = x := hz
      rw [normalValue] at hz'
      rw [← hz']
      exact hc
    · intro hN1 x hx
      subst hN1
      rw [← h.1] at hx
      obtain ⟨z, _, hz⟩ := List.mem_map.mp hx
      rw [← hz]
      exact normalValue_zero z
  · exact absurd h (by simp)

/-- C5 witness: `N = 1` with a far-out normal draw `z = 5` still yields `0`. -/
theorem normal_rand_clipped_range_witness :
    (∀ x ∈ ([0] : List ℤ), 0 ≤ x ∧ x ≤ ((1 : Nat) : ℤ) - 1) ∧
    (1 = 1 → ∀ x ∈ ([0] : List ℤ), x = 0) :=
  normal_rand_clipped_range 1 1 [5] [0] [] (by decide)
    (by norm_num [normal_rand, normalValue, roundHalfEven, clip])

/-! ### Run-count lemmas -/

theorem diffZ_cons2 (a b : ℤ) (t : List ℤ) :
    diffZ (a :: b :: t) = (b - a) :: diffZ (b :: t) := rfl

theorem diffZ_short (l : List ℤ) (h : l.length ≤ 1) : diffZ l = [] := by
  cases l with
  | nil => rfl
  | cons a t =>
    cases t with
    | nil => rfl
    | cons b t2 => simp at h

theorem diffZ_length (l : List ℤ) : (diffZ l).length = l.length - 1 := by
  simp only [diffZ, List.length_zipWith, List.length_drop]
  omega

theorem countP_diffZ_eq_zip (l : List ℤ) :
    (diffZ l).countP (fun d => decide (d ≠ 0)) =
      (l.zip (l.drop 1)).countP (fun p => decide (p.1 ≠ p.2)) := by
  induction l with
  | nil => rfl
  | cons a t ih =>
    cases t with
    | nil => rfl
    | cons b t2 =>
      rw [diffZ_cons2]
      have hz : (a :: b :: t2).zip ((a :: b :: t2).drop 1) =
          (a, b) :: (b :: t2).zip ((b :: t2).drop 1) := rfl
      rw [hz, List.countP_cons, List.countP_cons, ih]
      have : decide (b - a ≠ 0) = decide ((a, b).1 ≠ (a, b).2) := by
        simp [sub_ne_zero, ne_comm]
      rw [this]

theorem strictIncr_signs (s : List ℤ) (h : strictIncr s = true) :
    ∀ d ∈ diffZ s, signZ d = 1 := by
  induction s with
  | nil => intro d hd; exact absurd hd (by simp [diffZ])
  | cons a t ih =>
    cases t with
    | nil => intro d hd; exact absurd hd (by simp [diffZ])
    | cons b t2 =>
      have hsplit : (decide (a < b) && strictIncr (b :: t2)) = true := h
      rw [Bool.and_eq_true] at hsplit
      intro d hd
      rw [diffZ_cons2] at hd
      rcases List.mem_cons.mp hd with hd | hd
      · have hab : a < b := of_decide_eq_true hsplit.1
        subst hd
        simp only [signZ]
        rw [if_pos (by omega)]
      · exact ih hsplit.2 d hd

theorem map_const_diffZ (l : List ℤ) (c : ℤ) (h : ∀ x ∈ l, x = c) :
    ∀ d ∈ diffZ l, d = 0 := by
  induction l with
  | nil => intro d hd; exact absurd hd (by simp [diffZ])
  | cons a t ih =>
    cases t with
    | nil => intro d hd; exact absurd hd (by simp [diffZ])
    | cons b t2 =>
      intro d hd
      rw [diffZ_cons2] at hd
      rcases List.mem_cons.mp hd with hd | hd
      · have ha : a = c := h a (by simp)
        have hb : b = c := h b (by simp)
        subst hd; omega
      · exact ih (fun x hx => h x (List.mem_cons_of_mem a hx)) d hd

theorem alternating_sign_diffs (s : List ℤ) (h : alternating s = true) :
    ∀ x ∈ diffZ ((diffZ s).map signZ), x ≠ 0 := by
  rw [alternating, Bool.and_eq_true, List.all_eq_true] at h
  obtain ⟨hnz, hadj⟩ := h
  revert hnz hadj
  generalize diffZ s = l
  induction l with
  | nil => intro _ _ x hx; exact absurd hx (by simp [diffZ])
  | cons d t ih =>
    cases t with
    | nil => intro _ _ x hx; exact absurd hx (by simp [diffZ])
    | cons e t2 =>
      intro hnz hadj x hx
      have hd0 : signZ d ≠ 0 := of_decide_eq_true (hnz d (by simp))
      have hsplit : (decide (signZ e = -signZ d) &&
          adjAll (fun d e => decide (signZ e = -signZ d)) (e :: t2)) = true := hadj
      rw [Bool.and_eq_true] at hsplit
      have hde : signZ e = -signZ d := of_decide_eq_true hsplit.1
      have hmap : (d :: e :: t2).map signZ = signZ d :: signZ e :: t2.map signZ := rfl
      rw [hmap, diffZ_cons2] at hx
      rcases List.mem_cons.mp hx with hx | hx
      · subst hx; omega
      · exact ih (fun y hy => hnz y (List.mem_cons_of_mem d hy)) hsplit.2 x
          (by rw [show (e :: t2).map signZ = signZ e :: t2.map signZ from rfl]; exact hx)

/-- C6: the run count of the randomness test equals the spec's described
computation (first differences, signs, sign changes between consecutive
signs, plus 1); it is `1` on every strictly increasing sample and `k - 1` on
every alternating up/down sample of length `k ≥ 2`. -/
theorem runCount_monotone_alternating :
    (∀ s : List ℤ, runCount s = runCountSpec s) ∧
    (∀ s : List ℤ, strictIncr s = true → runCount s = 1) ∧
    (∀ s : List ℤ, 2 ≤ s.length → alternating s = true → runCount s = s.length - 1) := by
  refine ⟨?_, ?_, ?_⟩
  · intro s
    rw [runCount, runCountSpec, countP_diffZ_eq_zip]
  · intro s h
    rw [runCount]
    have hz : (diffZ ((diffZ s).map signZ)).countP (fun d => decide (d ≠ 0)) = 0 := by
      rw [List.countP_eq_zero]
      intro a ha
      have : a = 0 := by
        refine map_const_diffZ ((diffZ s).map signZ) 1 ?_ a ha
        intro x hx
        obtain ⟨d, hd, hdx⟩ := List.mem_map.mp hx
        rw [← hdx]
        exact strictIncr_signs s h d hd
      simp [this]
    rw [hz]
  · intro s hlen h
    rw [runCount]
    have hall : (diffZ ((diffZ s).map signZ)).countP (fun d => decide (d ≠ 0)) =
        (diffZ ((diffZ s).map signZ)).length := by
      rw [List.countP_eq_length]
      intro a ha
      exact decide_eq_true (alternating_sign_diffs s h a ha)
    rw [hall, diffZ_length, List.length_map, diffZ_length]
    omega

/-- C6 witness: a strictly increasing and an alternating concrete sample
(plus the refinement at a concrete sample). -/
theorem runCount_monotone_alternating_witness :
    runCount [0, 5, 2] = runCountSpec [0, 5, 2] ∧
    runCount [0, 1, 2, 3] = 1 ∧ runCount [0, 1, 0, 1] = 4 - 1 :=
  ⟨runCount_monotone_alternating.1 [0, 5, 2],
   runCount_monotone_alternating.2.1 [0, 1, 2, 3] (by decide),
   by
     have := runCount_monotone_alternating.2.2 [0, 1, 0, 1] (by decide) (by decide)
     simpa using this⟩

/-! ### Frequency-map lemmas -/

theorem indicator_range_sum (x : ℤ) (N : Nat) (h0 : 0 ≤ x) (hN : x < (N : ℤ)) :
    ((List.range N).map (fun (i : Nat) => if x = (i : ℤ) then 1 else 0)).sum = 1 := by
  induction N with
  | zero => exact absurd hN (by simp; omega)
  | succ n ih =>
    rw [List.range_succ, List.map_append, List.sum_append]
    by_cases hx : x < (n : ℤ)
    · rw [ih hx]
      have : x ≠ (n : ℤ) := by omega
      simp [this]
    · have hxn : x = (n : ℤ) := by push_cast at hN ⊢; omega
      have hz : ((List.range n).map (fun (i : Nat) => if x = (i : ℤ) then 1 else 0)).sum = 0 := by
        apply List.sum_eq_zero
        intro y hy
        obtain ⟨i, hi, hiy⟩ := List.mem_map.mp hy
        have hin : i < n := List.mem_range.mp hi
        have : x ≠ (i : ℤ) := by omega
        rw [← hiy, if_neg this]
      rw [hz]
      simp [hxn]

theorem observed_sum (N : Nat) (s : List ℤ) (h : ∀ x ∈ s, 0 ≤ x ∧ x < (N : ℤ)) :
    (observed N s).sum = s.length := by
  induction s with
  | nil => simp [observed]
  | cons x t ih =>
    have hmap : (List.range N).map (fun (i : Nat) => (x :: t).count ((i : ℤ))) =
        (List.range N).map (fun (i : Nat) => t.count ((i : ℤ)) + if x = (i : ℤ) then 1 else 0) := by
      apply List.map_congr_left
      intro i _
      rw [List.count_cons]
      simp
    rw [observed, hmap, List.sum_map_add]
    have hx := h x (by simp)
    rw [show ((List.range N).map (fun (i : Nat) => t.count ((i : ℤ)))).sum = (observed N t).sum
        from rfl,
      ih (fun y hy => h y (List.mem_cons_of_mem x hy)),
      indicator_range_sum x N hx.1 hx.2]
    simp

/-- C7: for every sample with values in `[0, N)`, the observed-frequency list
`[Counter(samples).get(i, 0) for i in range(N)]` of `distribution_check` has
exactly `N` entries (zero-filled where a value is absent) summing to the
sample length, and the expected list `np.full(N, len(samples)/N)` also has
`N` entries, each `len(samples)/N`. -/
theorem observed_expected_entries :
    ∀ (N : Nat) (s : List ℤ), (∀ x ∈ s, 0 ≤ x ∧ x < (N : ℤ)) →
      (observed N s).length = N ∧ (observed N s).sum = s.length ∧
      (expected N s).length = N ∧
      ∀ e ∈ expected N s, e = (s.length : ℚ) / (N : ℚ) := by
  intro N s h
  refine ⟨by simp [observed], observed_sum N s h, by simp [expected], ?_⟩
  intro e he
  obtain ⟨i, _, hie⟩ := List.mem_map.mp he
  exact hie.symm

/-- C7 witness: `N = 2`, sample `[0, 1, 1]`. -/
theorem observed_expected_entries_witness :
    (observed 2 [0, 1, 1]).length = 2 ∧ (observed 2 [0, 1, 1]).sum = [(0 : ℤ), 1, 1].length ∧
    (expected 2 [0, 1, 1]).length = 2 ∧
    ∀ e ∈ expected 2 [0, 1, 1], e = (([(0 : ℤ), 1, 1].length : ℚ)) / ((2 : Nat) : ℚ) :=
  observed_expected_entries 2 [0, 1, 1] (by decide)

/-! ### Interval-array lemmas -/

theorem occIdxAux_length (v : ℤ) :
    ∀ (s : List ℤ) (i : Nat), (occIdxAux v s i).length = s.count v := by
  intro s
  induction s with
  | nil => intro i; rfl
  | cons x t ih =>
    intro i
    rw [occIdxAux]
    by_cases hxv : x = v
    · rw [if_pos hxv, List.length_cons, ih, List.count_cons, if_pos (by simp [hxv])]
    · rw [if_neg hxv, ih, List.count_cons, if_neg (by simp [hxv])]
      omega

theorem insertFold_ne_nil :
    ∀ (t acc : List ℤ), acc ≠ [] →
      t.foldl (fun acc v => if v ∈ acc then acc else acc ++ [v]) acc ≠ [] := by
  intro t
  induction t with
  | nil => intro acc h; exact h
  | cons x t ih =>
    intro acc h
    rw [List.foldl_cons]
    apply ih
    by_cases hx : x ∈ acc
    · rw [if_pos hx]; exact h
    · rw [if_neg hx]; simp

theorem insertionKeys_ne_nil (s : List ℤ) (h : s ≠ []) : insertionKeys s ≠ [] := by
  cases s with
  | nil => exact absurd rfl h
  | cons x t =>
    rw [insertionKeys, List.foldl_cons]
    apply insertFold_ne_nil
    simp

/-- C9: for every non-empty sample in which every value appears at most once,
the interval computation of `distribution_test` succeeds (the concatenation
receives at least one per-value array, so `np.concatenate` does not raise)
and the resulting interval array is empty. -/
theorem intervals_empty_when_no_repeats :
    ∀ s : List ℤ, s ≠ [] → s.Nodup → intervals s = Except.ok [] := by
  intro s hne hnd
  rw [intervals]
  have hkeys : insertionKeys s ≠ [] := insertionKeys_ne_nil s hne
  have hgroups : ((insertionKeys s).map (fun v => diffZ (occIdx s v))).isEmpty = false := by
    cases hk : insertionKeys s with
    | nil => exact absurd hk hkeys
    | cons a t => rfl
  rw [if_neg (by rw [hgroups]; exact Bool.false_ne_true)]
  have hflat : ((insertionKeys s).map (fun v => diffZ (occIdx s v))).flatten = [] := by
    rw [List.flatten_eq_nil_iff]
    intro g hg
    obtain ⟨v, _, hvg⟩ := List.mem_map.mp hg
    have hcount : s.count v ≤ 1 := List.nodup_iff_count_le_one.mp hnd v
    have hlen : (occIdx s v).length ≤ 1 := by
      rw [occIdx, occIdxAux_length]
      exact hcount
    rw [← hvg]
    exact diffZ_short _ hlen
  rw [hflat]

/-- C9 witness: the duplicate-free sample `[0, 1]`. -/
theorem intervals_empty_when_no_repeats_witness :
    intervals [0, 1] = Except.ok [] :=
  intervals_empty_when_no_repeats [0, 1] (by decide) (by decide)

/-! ### Correlation lemmas -/

theorem const_list_sum (l : List ℚ) (c : ℚ) (h : ∀ x ∈ l, x = c) :
    l.sum = l.length * c := by
  induction l with
  | nil => simp
  | cons x t ih =>
    rw [List.sum_cons, List.length_cons, ih (fun y hy => h y (List.mem_cons_of_mem x hy)),
      h x (by simp)]
    push_cast
    ring

theorem const_sumSqDev (l : List ℚ) (c : ℚ) (hne : l ≠ []) (h : ∀ x ∈ l, x = c) :
    sumSqDev l = 0 := by
  have hlen : (l.length : ℚ) ≠ 0 := by
    have : 0 < l.length := List.length_pos.mpr hne
    simp only [ne_eq, Nat.cast_eq_zero]
    omega
  have hmean : meanQ l = c := by
    rw [meanQ, const_list_sum l c h, mul_comm, mul_div_assoc, div_self hlen, mul_one]
  apply List.sum_eq_zero
  intro y hy
  obtain ⟨x, hx, hxy⟩ := List.mem_map.mp hy
  rw [← hxy, hmean, h x hx]
  ring

/-- C10: for every constant sample of length ≥ 2, both series entering the
lag-1 Pearson correlation (`samples[:-1]` and `samples[1:]`) have zero sum of
squared deviations, so the `np.corrcoef` denominator is zero and the reported
coefficient is NaN. -/
theorem lag1_constant_sample_nan :
    ∀ (c : ℤ) (s : List ℤ), 2 ≤ s.length → (∀ x ∈ s, x = c) →
      sumSqDev (s.dropLast.map (fun (x : ℤ) => (x : ℚ))) = 0 ∧
      sumSqDev ((s.drop 1).map (fun (x : ℤ) => (x : ℚ))) = 0 ∧
      lag1CorrIsNaN s = true := by
  intro c s hlen h
  have hdl : s.dropLast ≠ [] := by
    intro hnil
    have hl := congrArg List.length hnil
    rw [List.length_dropLast] at hl
    simp only [List.length_nil] at hl
    omega
  have hdr : s.drop 1 ≠ [] := by
    intro hnil
    have hl := congrArg List.length hnil
    rw [List.length_drop] at hl
    simp only [List.length_nil] at hl
    omega
  have h1 : sumSqDev (s.dropLast.map (fun (x : ℤ) => (x : ℚ))) = 0 := by
    apply const_sumSqDev _ ((c : ℚ))
    · simp only [ne_eq, List.map_eq_nil_iff]
      exact hdl
    · intro y hy
      obtain ⟨x, hx, hxy⟩ := List.mem_map.mp hy
      rw [← hxy, h x ((List.dropLast_sublist s).subset hx)]
  have h2 : sumSqDev ((s.drop 1).map (fun (x : ℤ) => (x : ℚ))) = 0 := by
    apply const_sumSqDev _ ((c : ℚ))
    · simp only [ne_eq, List.map_eq_nil_iff]
      exact hdr
    · intro y hy
      obtain ⟨x, hx, hxy⟩ := List.mem_map.mp hy
      rw [← hxy, h x (List.drop_subset 1 s hx)]
  refine ⟨h1, h2, ?_⟩
  rw [lag1CorrIsNaN, corrIsNaN, h1]
  simp

/-- C10 witness: the constant sample `[7, 7]`. -/
theorem lag1_constant_sample_nan_witness :
    sumSqDev (([(7 : ℤ), 7]).dropLast.map (fun (x : ℤ) => (x : ℚ))) = 0 ∧
    sumSqDev ((([(7 : ℤ), 7]).drop 1).map (fun (x : ℤ) => (x : ℚ))) = 0 ∧
    lag1CorrIsNaN [7, 7] = true :=
  lag1_constant_sample_nan 7 [7, 7] (by decide) (by decide)

/-! ### Entropy lemmas -/

theorem sum_map_cast_div (l : List Nat) (d : ℚ) :
    (l.map (fun (c : Nat) => (c : ℚ) / d)).sum = ((l.sum : Nat) : ℚ) / d := by
  induction l with
  | nil => simp
  | cons x t ih =>
    rw [List.map_cons, List.sum_cons, ih, List.sum_cons]
    push_cast
    rw [add_div]

theorem filter_pos_sum (l : List ℚ) (h : ∀ x ∈ l, 0 ≤ x) :
    (l.filter (fun (p : ℚ) => decide (0 < p))).sum = l.sum := by
  induction l with
  | nil => rfl
  | cons x t ih =>
    have ht := ih (fun y hy => h y (List.mem_cons_of_mem x hy))
    rw [List.filter_cons]
    by_cases hx : 0 < x
    · rw [if_pos (by simp [hx]), List.sum_cons, List.sum_cons, ht]
    · have hx0 : x = 0 := le_antisymm (not_lt.mp hx) (h x (by simp))
      rw [if_neg (by simp [hx]), ht, List.sum_cons, hx0, zero_add]

theorem probs_pos (N : Nat) (s : List ℤ) : ∀ p ∈ probs N s, 0 < p := by
  intro p hp
  rw [probs] at hp
  exact of_decide_eq_true ((List.mem_filter.mp hp).2)

theorem probs_length_le (N : Nat) (s : List ℤ) : (probs N s).length ≤ N := by
  have h1 := List.length_filter_le (fun (p : ℚ) => decide (0 < p))
    ((observed N s).map (fun (c : Nat) => (c : ℚ) / (s.length : ℚ)))
  rw [probs]
  apply le_trans h1
  rw [List.length_map]
  simp [observed]

theorem probs_sum (N : Nat) (s : List ℤ) (hne : s ≠ [])
    (h : ∀ x ∈ s, 0 ≤ x ∧ x < (N : ℤ)) : (probs N s).sum = 1 := by
  rw [probs, filter_pos_sum]
  · rw [sum_map_cast_div (observed N s) ((s.length : ℚ)), observed_sum N s h]
    have hlen : (s.length : ℚ) ≠ 0 := by
      have := List.length_pos.mpr hne
      simp only [ne_eq, Nat.cast_eq_zero]
      omega
    exact div_self hlen
  · intro x hx
    obtain ⟨c, _, hcx⟩ := List.mem_map.mp hx
    rw [← hcx]
    positivity

theorem sumR_shift (l : List ℝ) (c : ℝ) :
    (l.map (fun p => c - p)).sum = l.length * c - l.sum := by
  induction l with
  | nil => simp
  | cons x t ih =>
    rw [List.map_cons, List.sum_cons, ih, List.sum_cons, List.length_cons]
    push_cast
    ring

theorem sumR_mulLog_shift (l : List ℝ) (c : ℝ) :
    (l.map (fun p => p * (-(Real.log p) - c))).sum =
      -((l.map (fun p => p * Real.log p)).sum) - l.sum * c := by
  induction l with
  | nil => simp
  | cons x t ih =>
    rw [List.map_cons, List.sum_cons, ih, List.map_cons, List.sum_cons, List.sum_cons]
    ring

theorem sumR_mulLogb (l : List ℝ) :
    (l.map (fun p => p * Real.logb 2 p)).sum =
      (l.map (fun p => p * Real.log p)).sum / Real.log 2 := by
  induction l with
  | nil => simp
  | cons x t ih =>
    rw [List.map_cons, List.sum_cons, ih, List.map_cons, List.sum_cons, add_div]
    simp only [Real.logb]
    ring

theorem negSum_mulLog_le (l : List ℝ) (hpos : ∀ p ∈ l, 0 < p) (hsum : l.sum = 1) :
    -((l.map (fun p => p * Real.log p)).sum) ≤ Real.log l.length := by
  have hne : l ≠ [] := by
    rintro rfl
    norm_num at hsum
  have hM0 : (0 : ℝ) < l.length := by
    have := List.length_pos.mpr hne
    exact_mod_cast this
  have key : ∀ p ∈ l, p * (-(Real.log p) - Real.log l.length) ≤ 1 / (l.length : ℝ) - p := by
    intro p hp
    have hp0 := hpos p hp
    have hx : (0 : ℝ) < 1 / (p * l.length) := by positivity
    have hlog := Real.log_le_sub_one_of_pos hx
    have hrw : Real.log (1 / (p * l.length)) = -(Real.log p) - Real.log l.length := by
      rw [one_div, Real.log_inv, Real.log_mul (ne_of_gt hp0) (ne_of_gt hM0)]
      ring
    rw [hrw] at hlog
    have hmul := mul_le_mul_of_nonneg_left hlog (le_of_lt hp0)
    calc p * (-(Real.log p) - Real.log l.length) ≤ p * (1 / (p * l.length) - 1) := hmul
      _ = 1 / (l.length : ℝ) - p := by
          field_simp
          ring
  have hsum_le := List.sum_le_sum key
  rw [sumR_mulLog_shift, sumR_shift, hsum] at hsum_le
  have hMM : (l.length : ℝ) * (1 / (l.length : ℝ)) = 1 := by field_simp
  rw [hMM] at hsum_le
  linarith

theorem negSum_mulLogb_le (l : List ℝ) (hpos : ∀ p ∈ l, 0 < p) (hsum : l.sum = 1) :
    -((l.map (fun p => p * Real.logb 2 p)).sum) ≤ Real.logb 2 l.length := by
  rw [sumR_mulLogb, Real.logb, ← neg_div]
  exact div_le_div_of_nonneg_right (negSum_mulLog_le l hpos hsum)
    (Real.log_nonneg one_le_two)

/-- C8: for every non-empty sample with values in `[0, N)`, the Shannon
entropy of `entropy_test` (relative frequencies over observed values only,
zero frequencies excluded, `-Σ p·log2 p`) is at most `log2 N`; and in the
concrete scenario `samples = [0,0,0,0]`, `N = 1`, the entropy is `0` and the
reported theoretical maximum `log2 1` is `0`. -/
theorem entropy_le_log2_domain :
    (∀ (N : Nat) (s : List ℤ), s ≠ [] → (∀ x ∈ s, 0 ≤ x ∧ x < (N : ℤ)) →
        entropy N s ≤ Real.logb 2 N) ∧
    entropy 1 [0, 0, 0, 0] = 0 ∧ Real.logb 2 ((1 : Nat) : ℝ) = 0 := by
  refine ⟨?_, ?_, by norm_num⟩
  · intro N s hne h
    set l : List ℝ := (probs N s).map (fun (q : ℚ) => (q : ℝ)) with hl
    have hpos : ∀ p ∈ l, 0 < p := by
      intro p hp
      obtain ⟨q, hq, hqp⟩ := List.mem_map.mp hp
      have hq0 := probs_pos N s q hq
      rw [← hqp]
      exact_mod_cast hq0
    have hsum : l.sum = 1 := by
      have hc : ((probs N s).sum : ℝ) = l.sum := Rat.cast_list_sum (probs N s)
      rw [← hc, probs_sum N s hne h]
      norm_num
    have hent : entropy N s = -((l.map (fun p => p * Real.logb 2 p)).sum) := by
      rw [entropy, hl, List.map_map]
      rfl
    rw [hent]
    apply le_trans (negSum_mulLogb_le l hpos hsum)
    have hlen_pos : 0 < l.length := by
      rcases Nat.eq_zero_or_pos l.length with hz | hp
      · exfalso
        have : l = [] := List.eq_nil_of_length_eq_zero hz
        rw [this] at hsum
        norm_num at hsum
      · exact hp
    have hNle : l.length ≤ N := by
      rw [hl, List.length_map]
      exact probs_length_le N s
    have hN0 : (0 : ℝ) < (N : ℝ) := by
      have : 0 < N := lt_of_lt_of_le hlen_pos hNle
      exact_mod_cast this
    exact (Real.logb_le_logb one_lt_two (by exact_mod_cast hlen_pos) hN0).mpr
      (by exact_mod_cast hNle)
  · have hp : probs 1 [0, 0, 0, 0] = [1] := by
      norm_num [probs, observed, List.range, List.range.loop, List.filter]
    rw [entropy, hp]
    simp

/-- C8 witness: the non-degenerate sample `[0, 1]` with `N = 2`. -/
theorem entropy_le_log2_domain_witness :
    entropy 2 [0, 1] ≤ Real.logb 2 ((2 : Nat) : ℝ) :=
  entropy_le_log2_domain.1 2 [0, 1] (by decide) (by decide)

end Program
